import Mathlib

/-!
Shallow embedding of the computational core of `src/streamlit_app.py`
(NGS Barcode Clash Checker): `hamming_distance`, `check_barcodes_within_set`,
`check_barcodes_between_sets` and `validate_barcodes`, together with proofs
of the specified properties.
-/

/-- Python strings are modelled as lists of characters. -/
abbrev Str : Type := List Char

/-- The ASCII whitespace characters removed by Python `str.strip()`
(space, tab, newline, carriage return, vertical tab, form feed). -/
def isPySpace (c : Char) : Bool :=
  c == ' ' || c == '\t' || c == '\n' || c == '\r' ||
    c == Char.ofNat 11 || c == Char.ofNat 12

/-- Python `str.strip()`: drop leading and trailing whitespace. -/
def pyStrip (s : Str) : Str :=
  ((s.dropWhile isPySpace).reverse.dropWhile isPySpace).reverse

/-- Python `str.upper()`, character-wise uppercasing. -/
def pyUpper (s : Str) : Str := s.map Char.toUpper

/-- `hamming_distance(s1, s2)` from the source: if the lengths differ it
returns `float('inf')`, modelled as `none`; otherwise
`sum(c1 != c2 for c1, c2 in zip(s1, s2))`, modelled as `some` of the
mismatch count over the zip. -/
def hamming_distance (s1 s2 : Str) : Option ℕ :=
  if s1.length ≠ s2.length then none
  else some ((s1.zip s2).countP fun p => decide (p.1 ≠ p.2))

/-- The Python comparison `distance <= max_distance` used by both detectors:
`float('inf')` (here `none`) is strictly greater than every finite integer,
so the comparison is false; a finite distance compares as usual. -/
def distLE (d : Option ℕ) (t : ℕ) : Bool :=
  match d with
  | none => false
  | some n => decide (n ≤ t)

/-- `itertools.combinations(l, 2)`: all pairs `(l[i], l[j])` with `i < j`,
in lexicographic index order. -/
def combinations2 {α : Type} : List α → List (α × α)
  | [] => []
  | x :: xs => (xs.map fun y => (x, y)) ++ combinations2 xs

/-- A clash record of the within-set detector: the Python dict
`{'Barcode 1': bc1, 'Barcode 2': bc2, 'Hamming Distance': distance}`
(three fixed distinct keys, hence a record). -/
structure WithinClash where
  barcode1 : Str
  barcode2 : Str
  distance : Option ℕ
deriving DecidableEq, Repr

/-- `check_barcodes_within_set(barcodes, max_distance)` from the source:
`barcode_list = list(set(barcodes))` removes exact duplicates (the order of
the surviving barcodes is implementation-defined in Python; `List.dedup`
likewise yields some duplicate-free list with the same members), then every
pair from `combinations(barcode_list, 2)` whose distance is `<= max_distance`
is appended as a clash record. Returns `(clashes, barcode_list)`. -/
def check_barcodes_within_set (barcodes : List Str) (max_distance : ℕ) :
    List WithinClash × List Str :=
  let barcode_list := barcodes.dedup
  let clashes := (combinations2 barcode_list).filterMap fun p =>
    let distance := hamming_distance p.1 p.2
    if distLE distance max_distance then
      some ⟨p.1, p.2, distance⟩
    else none
  (clashes, barcode_list)

/-- A Python dict value occurring in a cross-set clash record: either a
barcode string or a Hamming distance. -/
inductive PyVal where
  | str : Str → PyVal
  | dist : Option ℕ → PyVal
deriving DecidableEq, Repr

/-- A Python dict with string keys, modelled as its key-value pairs in
insertion order. -/
abbrev Dict : Type := List (Str × PyVal)

/-- Adding one key-value pair while building a Python dict literal: a
repeated key keeps its original position but its value is overwritten;
a fresh key is appended at the end. -/
def dictInsert (d : Dict) (k : Str) (v : PyVal) : Dict :=
  if d.any fun p => p.1 == k then
    d.map fun p => if p.1 == k then (k, v) else p
  else d ++ [(k, v)]

/-- The dict literal built for one cross-set clash:
`{f'{set1_name} Barcode': bc1, f'{set2_name} Barcode': bc2,
'Hamming Distance': distance}`, evaluated with Python dict semantics
(left to right, later duplicate keys overwrite). -/
def mkClashRecord (set1_name set2_name : Str) (bc1 bc2 : Str)
    (distance : Option ℕ) : Dict :=
  dictInsert
    (dictInsert
      (dictInsert [] (set1_name ++ " Barcode".data) (PyVal.str bc1))
      (set2_name ++ " Barcode".data) (PyVal.str bc2))
    "Hamming Distance".data (PyVal.dist distance)

/-- `check_barcodes_between_sets(set1, set2, max_distance, set1_name,
set2_name)` from the source: the nested loop over `set1` (outer) and `set2`
(inner) appends a clash record for every pair whose distance is
`<= max_distance`. No deduplication is performed. -/
def check_barcodes_between_sets (set1 set2 : List Str) (max_distance : ℕ)
    (set1_name set2_name : Str) : List Dict :=
  set1.flatMap fun bc1 => set2.filterMap fun bc2 =>
    let distance := hamming_distance bc1 bc2
    if distLE distance max_distance then
      some (mkClashRecord set1_name set2_name bc1 bc2 distance)
    else none

/-- The validity test of `validate_barcodes` applied to the cleaned string:
Python `if bc_clean and all(c in 'ACGT' for c in bc_clean)`, i.e. non-empty
and every character one of A, C, G, T. -/
def isValidClean (s : Str) : Bool :=
  !s.isEmpty && s.all fun c => c == 'A' || c == 'C' || c == 'G' || c == 'T'

/-- `validate_barcodes(barcodes)` from the source: each entry is cleaned by
`bc.strip().upper()`; if the cleaned form is non-empty and all-ACGT it is
appended to `valid` (cleaned form), otherwise the original entry is appended
to `invalid`. Input order is preserved in both outputs. -/
def validate_barcodes : List Str → List Str × List Str
  | [] => ([], [])
  | bc :: rest =>
    let bc_clean := pyUpper (pyStrip bc)
    let r := validate_barcodes rest
    if isValidClean bc_clean then (bc_clean :: r.1, r.2)
    else (r.1, bc :: r.2)

/-- Every ordered pair with first component drawn from `set1` and second
component drawn from `set2`, with multiplicity, in the nested-loop order of
the source (the spec's full Cartesian product). -/
def orderedPairs (set1 set2 : List Str) : List (Str × Str) :=
  set1.flatMap fun a => set2.map fun b => (a, b)

/-- Whether a within-set clash record holds the unordered pair of barcodes
`{a, b}` (in either orientation). -/
def matchesPair (a b : Str) (r : WithinClash) : Bool :=
  decide ((r.barcode1 = a ∧ r.barcode2 = b) ∨ (r.barcode1 = b ∧ r.barcode2 = a))

/-- The count of index positions at which two strings differ, written the
way the spec describes the Hamming distance of equal-length strings. -/
def specMismatchCount (s1 s2 : Str) : ℕ :=
  (List.range s1.length).countP fun i => decide (s1[i]? ≠ s2[i]?)

theorem countP_zip_ne_comm (a b : Str) :
    (a.zip b).countP (fun p => decide (p.1 ≠ p.2)) =
      (b.zip a).countP (fun p => decide (p.1 ≠ p.2)) := by
  induction a generalizing b with
  | nil => cases b <;> simp
  | cons x xs ih =>
    cases b with
    | nil => simp
    | cons y ys =>
      have hxy : decide (x ≠ y) = decide (y ≠ x) := decide_eq_decide.mpr ne_comm
      simp only [List.zip_cons_cons, List.countP_cons, ih ys, hxy]

theorem countP_zip_self (s : Str) :
    (s.zip s).countP (fun p => decide (p.1 ≠ p.2)) = 0 := by
  induction s with
  | nil => rfl
  | cons x xs ih =>
    simp only [List.zip_cons_cons, List.countP_cons, ih]
    simp

theorem hamming_comm (a b : Str) : hamming_distance a b = hamming_distance b a := by
  unfold hamming_distance
  rcases eq_or_ne a.length b.length with h | h
  · rw [if_neg (by simp [h]), if_neg (by simp [h])]
    exact congrArg some (countP_zip_ne_comm a b)
  · rw [if_pos h, if_pos (Ne.symm h)]

theorem hamming_self (s : Str) : hamming_distance s s = some 0 := by
  unfold hamming_distance
  rw [if_neg (by simp)]
  exact congrArg some (countP_zip_self s)

theorem countP_zip_eq_range (s1 : Str) : ∀ s2 : Str, s1.length = s2.length →
    (s1.zip s2).countP (fun p => decide (p.1 ≠ p.2)) =
      (List.range s1.length).countP fun i => decide (s1[i]? ≠ s2[i]?) := by
  induction s1 with
  | nil => intro s2 _; simp
  | cons x xs ih =>
    intro s2 h
    cases s2 with
    | nil => simp at h
    | cons y ys =>
      have hlen : xs.length = ys.length := by simpa using h
      simp only [List.zip_cons_cons, List.countP_cons, List.length_cons,
        List.range_succ_eq_map, List.countP_map]
      rw [ih ys hlen]
      simp [Function.comp_def, List.countP_cons]

theorem distLE_hamming_of_ne_length {a b : Str} (h : a.length ≠ b.length) (t : ℕ) :
    distLE (hamming_distance a b) t = false := by
  unfold hamming_distance distLE
  simp [h]

theorem distLE_hamming_length {a b : Str} {t : ℕ}
    (h : distLE (hamming_distance a b) t = true) : a.length = b.length := by
  by_contra hne
  rw [distLE_hamming_of_ne_length hne t] at h
  exact Bool.false_ne_true h

theorem validate_eq (l : List Str) :
    validate_barcodes l =
      ((l.map fun bc => pyUpper (pyStrip bc)).filter isValidClean,
        l.filter fun bc => !isValidClean (pyUpper (pyStrip bc))) := by
  induction l with
  | nil => rfl
  | cons bc rest ih =>
    simp only [validate_barcodes, ih, List.map_cons, List.filter_cons]
    by_cases h : isValidClean (pyUpper (pyStrip bc)) <;> simp [h]

theorem isValidClean_chars {s : Str} (h : isValidClean s = true) :
    s ≠ [] ∧ ∀ c ∈ s, c = 'A' ∨ c = 'C' ∨ c = 'G' ∨ c = 'T' := by
  unfold isValidClean at h
  simp only [Bool.and_eq_true, Bool.not_eq_true', List.all_eq_true] at h
  refine ⟨by simpa [List.isEmpty_iff] using h.1, fun c hc => ?_⟩
  have := h.2 c hc
  simp only [Bool.or_eq_true, beq_iff_eq] at this
  tauto

theorem dropWhile_eq_self_of {p : Char → Bool} {l : Str}
    (h : ∀ c ∈ l, p c = false) : l.dropWhile p = l := by
  cases l with
  | nil => rfl
  | cons x xs =>
    have hx : p x = false := h x (List.mem_cons_self x xs)
    rw [List.dropWhile_cons, hx]
    simp

theorem pyStrip_of_no_space {s : Str} (h : ∀ c ∈ s, isPySpace c = false) :
    pyStrip s = s := by
  unfold pyStrip
  rw [dropWhile_eq_self_of h,
    dropWhile_eq_self_of (fun c hc => h c (List.mem_reverse.mp hc)),
    List.reverse_reverse]

theorem acgt_not_space {c : Char} (h : c = 'A' ∨ c = 'C' ∨ c = 'G' ∨ c = 'T') :
    isPySpace c = false := by
  rcases h with h | h | h | h <;> subst h <;> decide

theorem toUpper_acgt {c : Char} (h : c = 'A' ∨ c = 'C' ∨ c = 'G' ∨ c = 'T') :
    c.toUpper = c := by
  rcases h with h | h | h | h <;> subst h <;> decide

theorem pyUpper_acgt {s : Str}
    (h : ∀ c ∈ s, c = 'A' ∨ c = 'C' ∨ c = 'G' ∨ c = 'T') : pyUpper s = s := by
  induction s with
  | nil => rfl
  | cons x xs ih =>
    simp only [pyUpper, List.map_cons] at ih ⊢
    rw [toUpper_acgt (h x (List.mem_cons_self x xs)),
      ih (fun c hc => h c (List.mem_cons_of_mem x hc))]

theorem clean_fix {v : Str} (h : isValidClean v = true) :
    pyUpper (pyStrip v) = v := by
  have hc := (isValidClean_chars h).2
  rw [pyStrip_of_no_space (fun c hc2 => acgt_not_space (hc c hc2)), pyUpper_acgt hc]

theorem validate_fixlist {l : List Str}
    (h : ∀ v ∈ l, isValidClean v = true) : validate_barcodes l = (l, []) := by
  induction l with
  | nil => rfl
  | cons v rest ih =>
    have hv := h v (List.mem_cons_self v rest)
    have hfix := clean_fix hv
    simp only [validate_barcodes, hfix, hv,
      ih (fun x hx => h x (List.mem_cons_of_mem v hx)), if_true]

theorem mem_valid {l : List Str} {v : Str} (h : v ∈ (validate_barcodes l).1) :
    isValidClean v = true ∧ ∃ bc ∈ l, v = pyUpper (pyStrip bc) := by
  rw [validate_eq] at h
  simp only [List.mem_filter, List.mem_map] at h
  obtain ⟨⟨bc, hbc, rfl⟩, hvalid⟩ := h
  exact ⟨hvalid, bc, hbc, rfl⟩

theorem filterMap_ite_eq_map_filter {α β : Type} (l : List α) (p : α → Bool)
    (g : α → β) :
    (l.filterMap fun x => if p x then some (g x) else none) =
      (l.filter p).map g := by
  induction l with
  | nil => rfl
  | cons x xs ih =>
    by_cases h : p x <;> simp [List.filterMap_cons, List.filter_cons, h, ih]

theorem length_filterMap_ite {α β : Type} (l : List α) (p : α → Bool)
    (g : α → β) :
    (l.filterMap fun x => if p x then some (g x) else none).length =
      l.countP p := by
  rw [filterMap_ite_eq_map_filter, List.length_map,
    ← List.countP_eq_length_filter]

theorem countP_filterMap_ite {α β : Type} (l : List α) (p : α → Bool)
    (g : α → β) (q : β → Bool) :
    (l.filterMap fun x => if p x then some (g x) else none).countP q =
      l.countP fun x => p x && q (g x) := by
  induction l with
  | nil => rfl
  | cons x xs ih =>
    by_cases h : p x <;> simp [List.filterMap_cons, List.countP_cons, h, ih]

theorem countP_le_of_imp {α : Type} (l : List α) (p q : α → Bool)
    (h : ∀ x ∈ l, p x = true → q x = true) : l.countP p ≤ l.countP q := by
  induction l with
  | nil => exact Nat.le_refl 0
  | cons x xs ih =>
    simp only [List.countP_cons]
    have hxs := ih fun y hy => h y (List.mem_cons_of_mem x hy)
    by_cases hx : p x = true
    · rw [hx, h x (List.mem_cons_self x xs) hx]
      omega
    · simp only [Bool.not_eq_true] at hx
      rw [hx]
      by_cases hq : q x = true <;> simp [hq] <;> omega

theorem countP_and_of {α : Type} (l : List α) (c m : α → Bool) (b : Bool)
    (h : ∀ x ∈ l, m x = true → c x = b) :
    l.countP (fun x => c x && m x) = if b then l.countP m else 0 := by
  induction l with
  | nil => cases b <;> rfl
  | cons x xs ih =>
    have hxs := ih fun y hy => h y (List.mem_cons_of_mem x hy)
    simp only [List.countP_cons, hxs]
    by_cases hm : m x = true
    · rw [h x (List.mem_cons_self x xs) hm]
      cases b <;> simp [hm]
    · simp only [Bool.not_eq_true] at hm
      cases b <;> simp [hm]

theorem countP_eq_ite_mem {α : Type} [DecidableEq α] {l : List α}
    (hn : l.Nodup) (b : α) :
    l.countP (fun y => decide (y = b)) = if b ∈ l then 1 else 0 := by
  induction l with
  | nil => rfl
  | cons z zs ih =>
    obtain ⟨hz, hzs⟩ := List.nodup_cons.mp hn
    simp only [List.countP_cons, ih hzs, List.mem_cons]
    by_cases hzb : z = b
    · subst hzb
      simp [hz]
    · simp [hzb, Ne.symm hzb]

theorem distLE_mono {d : Option ℕ} {t1 t2 : ℕ} (h : t1 ≤ t2)
    (hd : distLE d t1 = true) : distLE d t2 = true := by
  cases d with
  | none => exact absurd hd (by simp [distLE])
  | some n =>
    simp only [distLE, decide_eq_true_eq] at hd ⊢
    omega

theorem mem_combinations2 {α : Type} {l : List α} (hn : l.Nodup) {p : α × α}
    (hp : p ∈ combinations2 l) : p.1 ∈ l ∧ p.2 ∈ l ∧ p.1 ≠ p.2 := by
  induction l with
  | nil => simp [combinations2] at hp
  | cons x xs ih =>
    obtain ⟨hx, hxs⟩ := List.nodup_cons.mp hn
    simp only [combinations2, List.mem_append, List.mem_map] at hp
    rcases hp with ⟨y, hy, rfl⟩ | hp
    · refine ⟨List.mem_cons_self x xs, List.mem_cons_of_mem x hy, ?_⟩
      dsimp only
      intro h
      subst h
      exact hx hy
    · obtain ⟨h1, h2, h3⟩ := ih hxs hp
      exact ⟨List.mem_cons_of_mem x h1, List.mem_cons_of_mem x h2, h3⟩

theorem combinations2_short {α : Type} {l : List α} (h : l.length ≤ 1) :
    combinations2 l = [] := by
  cases l with
  | nil => rfl
  | cons x xs =>
    cases xs with
    | nil => rfl
    | cons y ys => simp at h

theorem countP_combinations2 {α : Type} [DecidableEq α] {l : List α}
    (hn : l.Nodup) (a b : α) :
    (combinations2 l).countP
        (fun p => decide ((p.1 = a ∧ p.2 = b) ∨ (p.1 = b ∧ p.2 = a))) =
      if a ≠ b ∧ a ∈ l ∧ b ∈ l then 1 else 0 := by
  induction l with
  | nil => simp [combinations2]
  | cons x xs ih =>
    obtain ⟨hx, hxs⟩ := List.nodup_cons.mp hn
    simp only [combinations2]
    rw [List.countP_append, List.countP_map, ih hxs]
    by_cases hxa : x = a
    · subst hxa
      by_cases hxb : x = b
      · subst hxb
        have hp : ((fun p : α × α =>
              decide ((p.1 = x ∧ p.2 = x) ∨ (p.1 = x ∧ p.2 = x))) ∘
            fun y => (x, y)) = fun y => decide (y = x) := by
          funext y; simp
        rw [hp, countP_eq_ite_mem hxs x]
        simp [hx]
      · have hp : ((fun p : α × α =>
              decide ((p.1 = x ∧ p.2 = b) ∨ (p.1 = b ∧ p.2 = x))) ∘
            fun y => (x, y)) = fun y => decide (y = b) := by
          funext y; simp [hxb]
        rw [hp, countP_eq_ite_mem hxs b]
        simp only [List.mem_cons]
        by_cases hb : b ∈ xs <;> simp [hb, hx, hxb, Ne.symm hxb]
    · by_cases hxb : x = b
      · subst hxb
        have hp : ((fun p : α × α =>
              decide ((p.1 = a ∧ p.2 = x) ∨ (p.1 = x ∧ p.2 = a))) ∘
            fun y => (x, y)) = fun y => decide (y = a) := by
          funext y; simp [hxa]
        rw [hp, countP_eq_ite_mem hxs a]
        simp only [List.mem_cons]
        by_cases ha : a ∈ xs <;> simp [ha, hx, hxa, Ne.symm hxa]
      · have hp : ((fun p : α × α =>
              decide ((p.1 = a ∧ p.2 = b) ∨ (p.1 = b ∧ p.2 = a))) ∘
            fun y => (x, y)) = fun _ => false := by
          funext y; simp [hxa, hxb]
        rw [hp]
        simp only [List.mem_cons]
        simp [Ne.symm hxa, Ne.symm hxb]

theorem within_clashes_eq (barcodes : List Str) (t : ℕ) :
    (check_barcodes_within_set barcodes t).1 =
      (combinations2 barcodes.dedup).filterMap fun p =>
        if distLE (hamming_distance p.1 p.2) t then
          some ⟨p.1, p.2, hamming_distance p.1 p.2⟩
        else none := rfl

theorem within_mem_record {barcodes : List Str} {t : ℕ} {r : WithinClash}
    (h : r ∈ (check_barcodes_within_set barcodes t).1) :
    r.distance = hamming_distance r.barcode1 r.barcode2 ∧
      distLE r.distance t = true ∧ r.barcode1 ≠ r.barcode2 ∧
      r.barcode1 ∈ barcodes.dedup ∧ r.barcode2 ∈ barcodes.dedup := by
  rw [within_clashes_eq] at h
  simp only [List.mem_filterMap] at h
  obtain ⟨p, hp, hr⟩ := h
  by_cases hd : distLE (hamming_distance p.1 p.2) t = true
  · rw [if_pos hd] at hr
    obtain rfl := Option.some.inj hr
    obtain ⟨h1, h2, h3⟩ := mem_combinations2 (List.nodup_dedup barcodes) hp
    exact ⟨rfl, hd, h3, h1, h2⟩
  · rw [if_neg hd] at hr
    exact absurd hr (by simp)

theorem countP_within_matches (barcodes : List Str) (t : ℕ) (a b : Str) :
    ((check_barcodes_within_set barcodes t).1).countP (matchesPair a b) =
      if a ≠ b ∧ a ∈ barcodes.dedup ∧ b ∈ barcodes.dedup ∧
          distLE (hamming_distance a b) t = true then 1 else 0 := by
  rw [within_clashes_eq, countP_filterMap_ite]
  have hstep : (combinations2 barcodes.dedup).countP
      (fun p => distLE (hamming_distance p.1 p.2) t &&
        matchesPair a b ⟨p.1, p.2, hamming_distance p.1 p.2⟩) =
      if distLE (hamming_distance a b) t then
        (combinations2 barcodes.dedup).countP
          (fun p => matchesPair a b ⟨p.1, p.2, hamming_distance p.1 p.2⟩)
      else 0 := by
    apply countP_and_of
    intro p _ hmp
    simp only [matchesPair, decide_eq_true_eq] at hmp
    rcases hmp with ⟨h1, h2⟩ | ⟨h1, h2⟩
    · rw [h1, h2]
    · rw [h1, h2, hamming_comm b a]
  rw [hstep]
  have hpair : (fun p : Str × Str =>
      matchesPair a b ⟨p.1, p.2, hamming_distance p.1 p.2⟩) =
      fun p => decide ((p.1 = a ∧ p.2 = b) ∨ (p.1 = b ∧ p.2 = a)) := rfl
  rw [hpair, countP_combinations2 (List.nodup_dedup barcodes) a b]
  by_cases hd : distLE (hamming_distance a b) t = true
  · simp only [hd, if_true, and_true]
    by_cases hm : a ≠ b ∧ a ∈ barcodes.dedup ∧ b ∈ barcodes.dedup <;> simp [hm, hd]
  · simp only [Bool.not_eq_true] at hd
    simp [hd]

theorem between_eq (set1 set2 : List Str) (t : ℕ) (n1 n2 : Str) :
    check_barcodes_between_sets set1 set2 t n1 n2 =
      ((orderedPairs set1 set2).filter fun p =>
        distLE (hamming_distance p.1 p.2) t).map
        fun p => mkClashRecord n1 n2 p.1 p.2 (hamming_distance p.1 p.2) := by
  induction set1 with
  | nil => rfl
  | cons a s1 ih =>
    simp only [check_barcodes_between_sets, orderedPairs, List.flatMap_cons,
      List.filter_append, List.map_append] at ih ⊢
    congr 1
    rw [filterMap_ite_eq_map_filter set2
      (fun b => distLE (hamming_distance a b) t)
      (fun b => mkClashRecord n1 n2 a b (hamming_distance a b)),
      List.filter_map, List.map_map]
    rfl

theorem between_length (s1 s2 : List Str) (t : ℕ) (n1 n2 : Str) :
    (check_barcodes_between_sets s1 s2 t n1 n2).length =
      (orderedPairs s1 s2).countP fun p => distLE (hamming_distance p.1 p.2) t := by
  rw [between_eq, List.length_map, ← List.countP_eq_length_filter]

theorem within_length (barcodes : List Str) (t : ℕ) :
    (check_barcodes_within_set barcodes t).1.length =
      (combinations2 barcodes.dedup).countP
        fun p => distLE (hamming_distance p.1 p.2) t := by
  rw [within_clashes_eq]
  exact length_filterMap_ite _ _ _

theorem mem_orderedPairs {s1 s2 : List Str} {p : Str × Str}
    (h : p ∈ orderedPairs s1 s2) : p.1 ∈ s1 ∧ p.2 ∈ s2 := by
  simp only [orderedPairs, List.mem_flatMap, List.mem_map] at h
  obtain ⟨a, ha, b, hb, rfl⟩ := h
  exact ⟨ha, hb⟩

theorem mem_between {s1 s2 : List Str} {t : ℕ} {n1 n2 : Str} {r : Dict}
    (h : r ∈ check_barcodes_between_sets s1 s2 t n1 n2) :
    ∃ a b, a ∈ s1 ∧ b ∈ s2 ∧ distLE (hamming_distance a b) t = true ∧
      r = mkClashRecord n1 n2 a b (hamming_distance a b) := by
  rw [between_eq] at h
  simp only [List.mem_map, List.mem_filter] at h
  obtain ⟨p, ⟨hp, hd⟩, rfl⟩ := h
  obtain ⟨h1, h2⟩ := mem_orderedPairs hp
  exact ⟨p.1, p.2, h1, h2, hd, rfl⟩

theorem barcode_key_ne (name : Str) :
    name ++ " Barcode".data ≠ "Hamming Distance".data := by
  intro h
  have hsplit : "Hamming Distance".data = "Hamming ".data ++ "Distance".data := by
    decide
  rw [hsplit] at h
  have hlen : (" Barcode".data).length = ("Distance".data).length := by decide
  exact absurd (List.append_inj' h hlen).2 (by decide)

theorem mkClashRecord_same (name bc1 bc2 : Str) (d : Option ℕ) :
    mkClashRecord name name bc1 bc2 d =
      [(name ++ " Barcode".data, PyVal.str bc2),
        ("Hamming Distance".data, PyVal.dist d)] := by
  unfold mkClashRecord dictInsert
  have h2 : ((name ++ " Barcode".data) == "Hamming Distance".data) = false :=
    beq_eq_false_iff_ne.mpr (barcode_key_ne name)
  simp [h2]

/-- Claim C1: for every barcode list and threshold,
`check_barcodes_within_set` returns `(clashes, unique_list)` where
`unique_list` holds each distinct input barcode exactly once (order
implementation-defined), and `clashes` holds exactly one record — with the
two barcodes and their distance — for every unordered pair of distinct
barcodes of `unique_list` at Hamming distance at most the threshold, and no
other records; 0 or 1 unique barcodes yield zero clashes, and
`["ACGT", "ACGA"]` at threshold 1 yields exactly one clash of distance 1. -/
theorem C1_within_set_correct :
    (∀ (barcodes : List Str) (t : ℕ),
      (check_barcodes_within_set barcodes t).2.Nodup ∧
      (∀ b : Str, b ∈ (check_barcodes_within_set barcodes t).2 ↔ b ∈ barcodes) ∧
      (∀ a b : Str,
        ((check_barcodes_within_set barcodes t).1).countP (matchesPair a b) =
          if a ≠ b ∧ a ∈ (check_barcodes_within_set barcodes t).2 ∧
              b ∈ (check_barcodes_within_set barcodes t).2 ∧
              distLE (hamming_distance a b) t = true then 1 else 0) ∧
      (∀ r ∈ (check_barcodes_within_set barcodes t).1,
        r.distance = hamming_distance r.barcode1 r.barcode2 ∧
        distLE r.distance t = true ∧ r.barcode1 ≠ r.barcode2 ∧
        r.barcode1 ∈ (check_barcodes_within_set barcodes t).2 ∧
        r.barcode2 ∈ (check_barcodes_within_set barcodes t).2) ∧
      ((check_barcodes_within_set barcodes t).2.length ≤ 1 →
        (check_barcodes_within_set barcodes t).1 = [])) ∧
    (check_barcodes_within_set ["ACGT".data, "ACGA".data] 1).1.length = 1 ∧
    ∀ r ∈ (check_barcodes_within_set ["ACGT".data, "ACGA".data] 1).1,
      r.distance = some 1 := by
  refine ⟨fun barcodes t => ⟨List.nodup_dedup barcodes,
    fun b => List.mem_dedup, fun a b => countP_within_matches barcodes t a b,
    fun r hr => within_mem_record hr, ?_⟩, by decide, by decide⟩
  intro hlen
  have hlen2 : barcodes.dedup.length ≤ 1 := hlen
  rw [within_clashes_eq, combinations2_short hlen2]
  rfl

/-- Witness for C1: a one-barcode input satisfies the hypothesis of the
zero-clash edge case, and indeed yields no clashes. -/
theorem C1_witness :
    (check_barcodes_within_set ["ACGT".data] 5).2.length ≤ 1 ∧
    (check_barcodes_within_set ["ACGT".data] 5).1 = [] :=
  ⟨by decide, (C1_within_set_correct.1 ["ACGT".data] 5).2.2.2.2 (by decide)⟩

/-- Claim C2: `check_barcodes_between_sets` emits exactly one record for
every ordered pair drawn from set 1 × set 2 (with multiplicity — neither
list is deduplicated) whose Hamming distance is at most the threshold — it
equals the record image of the filtered Cartesian product — and every
emitted record pairs a barcode of set 1 with a barcode of set 2, never two
barcodes drawn from the same input set. -/
theorem C2_between_sets_correct (set1 set2 : List Str) (t : ℕ) (n1 n2 : Str) :
    check_barcodes_between_sets set1 set2 t n1 n2 =
      ((orderedPairs set1 set2).filter fun p =>
        distLE (hamming_distance p.1 p.2) t).map
        (fun p => mkClashRecord n1 n2 p.1 p.2 (hamming_distance p.1 p.2)) ∧
    (check_barcodes_between_sets set1 set2 t n1 n2).length =
      (orderedPairs set1 set2).countP
        (fun p => distLE (hamming_distance p.1 p.2) t) ∧
    ∀ r ∈ check_barcodes_between_sets set1 set2 t n1 n2,
      ∃ a b, a ∈ set1 ∧ b ∈ set2 ∧ distLE (hamming_distance a b) t = true ∧
        r = mkClashRecord n1 n2 a b (hamming_distance a b) :=
  ⟨between_eq set1 set2 t n1 n2, between_length set1 set2 t n1 n2,
    fun _ hr => mem_between hr⟩

/-- Witness for C2: the spec's cross-set example, one qualifying record
whose provenance the theorem recovers. -/
theorem C2_witness :
    mkClashRecord "Set 1".data "Set 2".data "AAAA".data "AAAA".data (some 0) ∈
      check_barcodes_between_sets ["AAAA".data] ["AAAA".data, "TTTT".data] 0
        "Set 1".data "Set 2".data ∧
    ∃ a b, a ∈ ["AAAA".data] ∧ b ∈ ["AAAA".data, "TTTT".data] ∧
      distLE (hamming_distance a b) 0 = true ∧
      mkClashRecord "Set 1".data "Set 2".data "AAAA".data "AAAA".data (some 0) =
        mkClashRecord "Set 1".data "Set 2".data a b (hamming_distance a b) :=
  ⟨by decide, (C2_between_sets_correct ["AAAA".data] ["AAAA".data, "TTTT".data]
    0 "Set 1".data "Set 2".data).2.2 _ (by decide)⟩

/-- Claim C3: strings of different lengths are never within any finite
threshold of each other, so neither detector ever emits a clash record for
a pair of barcodes of differing length. -/
theorem C3_length_mismatch_never_clashes :
    (∀ a b : Str, a.length ≠ b.length → ∀ t : ℕ,
      distLE (hamming_distance a b) t = false) ∧
    (∀ (barcodes : List Str) (t : ℕ),
      ∀ r ∈ (check_barcodes_within_set barcodes t).1,
        r.barcode1.length = r.barcode2.length) ∧
    (∀ (set1 set2 : List Str) (t : ℕ) (n1 n2 : Str),
      ∀ r ∈ check_barcodes_between_sets set1 set2 t n1 n2,
        ∃ a b, a ∈ set1 ∧ b ∈ set2 ∧ a.length = b.length ∧
          r = mkClashRecord n1 n2 a b (hamming_distance a b)) := by
  refine ⟨fun a b h t => distLE_hamming_of_ne_length h t, ?_, ?_⟩
  · intro barcodes t r hr
    obtain ⟨hdist, hle, -, -, -⟩ := within_mem_record hr
    exact distLE_hamming_length (hdist ▸ hle)
  · intro s1 s2 t n1 n2 r hr
    obtain ⟨a, b, ha, hb, hle, hrec⟩ := mem_between hr
    exact ⟨a, b, ha, hb, distLE_hamming_length hle, hrec⟩

/-- Witness for C3: the spec's example pair of different lengths is not
within threshold 5. -/
theorem C3_witness : distLE (hamming_distance "AC".data "ACG".data) 5 = false :=
  C3_length_mismatch_never_clashes.1 "AC".data "ACG".data (by decide) 5

/-- Claim C4: on equal-length strings `hamming_distance` returns the count
of index positions at which the characters differ; it is zero on every
string paired with itself, and 1 on the pair ACGT, ACGG. -/
theorem C4_hamming_equal_length :
    (∀ s1 s2 : Str, s1.length = s2.length →
      hamming_distance s1 s2 = some (specMismatchCount s1 s2)) ∧
    (∀ s : Str, hamming_distance s s = some 0) ∧
    hamming_distance "ACGT".data "ACGG".data = some 1 := by
  refine ⟨?_, hamming_self, by decide⟩
  intro s1 s2 h
  unfold hamming_distance specMismatchCount
  rw [if_neg (by simp [h])]
  exact congrArg some (countP_zip_eq_range s1 s2 h)

/-- Witness for C4: the equal-length clause instantiated on ACGT, ACGG. -/
theorem C4_witness :
    ("ACGT".data).length = ("ACGG".data).length ∧
    hamming_distance "ACGT".data "ACGG".data =
      some (specMismatchCount "ACGT".data "ACGG".data) :=
  ⟨by decide, C4_hamming_equal_length.1 "ACGT".data "ACGG".data (by decide)⟩

/-- Claim C5: `validate_barcodes` routes each element to exactly one of the
two output lists, preserving input order: the trimmed uppercased form goes
to the valid list exactly when it is non-empty and all-ACGT, otherwise the
original untrimmed element goes to the invalid list; every valid output
string is a non-empty string over A, C, G, T. -/
theorem C5_validator_partition (l : List Str) :
    validate_barcodes l =
      ((l.map fun bc => pyUpper (pyStrip bc)).filter isValidClean,
        l.filter fun bc => !isValidClean (pyUpper (pyStrip bc))) ∧
    ∀ v ∈ (validate_barcodes l).1,
      v ≠ [] ∧ ∀ c ∈ v, c = 'A' ∨ c = 'C' ∨ c = 'G' ∨ c = 'T' :=
  ⟨validate_eq l, fun _ hv => isValidClean_chars (mem_valid hv).1⟩

/-- Witness for C5: a mixed input, with the ACGT property checked on the
surviving normalized entry. -/
theorem C5_witness :
    "ACGT".data ∈ (validate_barcodes ["  acgt ".data, "AXGT".data]).1 ∧
    ("ACGT".data ≠ [] ∧
      ∀ c ∈ "ACGT".data, c = 'A' ∨ c = 'C' ∨ c = 'G' ∨ c = 'T') :=
  ⟨by decide, (C5_validator_partition ["  acgt ".data, "AXGT".data]).2
    "ACGT".data (by decide)⟩

/-- Claim C6: with the inputs fixed, the number of clash records of either
detector is monotone non-decreasing in the threshold. -/
theorem C6_monotone_in_threshold (t1 t2 : ℕ) (h : t1 ≤ t2) :
    (∀ barcodes : List Str,
      (check_barcodes_within_set barcodes t1).1.length ≤
        (check_barcodes_within_set barcodes t2).1.length) ∧
    (∀ (set1 set2 : List Str) (n1 n2 : Str),
      (check_barcodes_between_sets set1 set2 t1 n1 n2).length ≤
        (check_barcodes_between_sets set1 set2 t2 n1 n2).length) := by
  constructor
  · intro barcodes
    rw [within_length, within_length]
    exact countP_le_of_imp _ _ _ fun p _ hp => distLE_mono h hp
  · intro s1 s2 n1 n2
    rw [between_length, between_length]
    exact countP_le_of_imp _ _ _ fun p _ hp => distLE_mono h hp

/-- Witness for C6: thresholds 0 ≤ 1 on a concrete within-set input. -/
theorem C6_witness :
    (0 : ℕ) ≤ 1 ∧
    (check_barcodes_within_set ["ACGT".data, "ACGA".data] 0).1.length ≤
      (check_barcodes_within_set ["ACGT".data, "ACGA".data] 1).1.length :=
  ⟨by decide,
    (C6_monotone_in_threshold 0 1 (by decide)).1 ["ACGT".data, "ACGA".data]⟩

/-- Claim C7: `validate_barcodes` is idempotent on its own valid output:
reapplying it to the valid list returns that list unchanged and an empty
invalid list. -/
theorem C7_validator_idempotent (l : List Str) :
    validate_barcodes (validate_barcodes l).1 = ((validate_barcodes l).1, []) :=
  validate_fixlist fun _ hv => (mem_valid hv).1

/-- Claim C8: `hamming_distance` is symmetric, on equal-length and on
differing-length string pairs alike. -/
theorem C8_hamming_symmetric (a b : Str) :
    hamming_distance a b = hamming_distance b a :=
  hamming_comm a b

/-- Claim C9: all four core functions are total functions of their inputs —
each returns a result on every input, with no failure path in the
embedding — and every input element of the validator is classified, a
malformed one going to the invalid output rather than causing a failure. -/
theorem C9_core_total :
    (∀ l : List Str, ∃ r, validate_barcodes l = r) ∧
    (∀ s1 s2 : Str, ∃ d, hamming_distance s1 s2 = d) ∧
    (∀ (barcodes : List Str) (t : ℕ),
      ∃ out, check_barcodes_within_set barcodes t = out) ∧
    (∀ (set1 set2 : List Str) (t : ℕ) (n1 n2 : Str),
      ∃ cl, check_barcodes_between_sets set1 set2 t n1 n2 = cl) ∧
    (∀ l : List Str, ∀ bc ∈ l,
      (isValidClean (pyUpper (pyStrip bc)) = true ∧
        pyUpper (pyStrip bc) ∈ (validate_barcodes l).1) ∨
      (isValidClean (pyUpper (pyStrip bc)) = false ∧
        bc ∈ (validate_barcodes l).2)) := by
  refine ⟨fun l => ⟨_, rfl⟩, fun s1 s2 => ⟨_, rfl⟩, fun b t => ⟨_, rfl⟩,
    fun s1 s2 t n1 n2 => ⟨_, rfl⟩, ?_⟩
  intro l bc hbc
  by_cases hv : isValidClean (pyUpper (pyStrip bc)) = true
  · refine Or.inl ⟨hv, ?_⟩
    rw [validate_eq]
    simp only [List.mem_filter, List.mem_map]
    exact ⟨⟨bc, hbc, rfl⟩, hv⟩
  · refine Or.inr ⟨by simpa using hv, ?_⟩
    rw [validate_eq]
    simp only [List.mem_filter]
    exact ⟨hbc, by simpa using hv⟩

/-- Witness for C9: a malformed entry is classified into the invalid
output. -/
theorem C9_witness :
    "ax".data ∈ ["ax".data] ∧
    ((isValidClean (pyUpper (pyStrip "ax".data)) = true ∧
        pyUpper (pyStrip "ax".data) ∈ (validate_barcodes ["ax".data]).1) ∨
      (isValidClean (pyUpper (pyStrip "ax".data)) = false ∧
        "ax".data ∈ (validate_barcodes ["ax".data]).2)) :=
  ⟨by decide, C9_core_total.2.2.2.2 ["ax".data] "ax".data (by decide)⟩

/-- Claim C10: when the two labels of `check_barcodes_between_sets` are the
equal string `name`, both barcode entries use the identical dict key
`name ++ " Barcode"`, so every emitted record has only two fields and the
set-1 barcode is overwritten by the set-2 barcode. -/
theorem C10_equal_labels_collapse (set1 set2 : List Str) (t : ℕ) (name : Str) :
    ∀ r ∈ check_barcodes_between_sets set1 set2 t name name,
      r.length = 2 ∧
      ∃ a b, a ∈ set1 ∧ b ∈ set2 ∧ distLE (hamming_distance a b) t = true ∧
        r = [(name ++ " Barcode".data, PyVal.str b),
          ("Hamming Distance".data, PyVal.dist (hamming_distance a b))] := by
  intro r hr
  obtain ⟨a, b, ha, hb, hle, hrec⟩ := mem_between hr
  rw [mkClashRecord_same] at hrec
  exact ⟨by rw [hrec]; rfl, a, b, ha, hb, hle, hrec⟩

/-- Witness for C10: equal labels on a concrete input produce the collapsed
two-field record. -/
theorem C10_witness :
    (([("S Barcode".data, PyVal.str "AAAA".data),
        ("Hamming Distance".data, PyVal.dist (some 0))] : Dict) ∈
      check_barcodes_between_sets ["AAAA".data] ["AAAA".data] 0
        "S".data "S".data) ∧
    ([("S Barcode".data, PyVal.str "AAAA".data),
        ("Hamming Distance".data, PyVal.dist (some 0))] : Dict).length = 2 :=
  ⟨by decide, (C10_equal_labels_collapse ["AAAA".data] ["AAAA".data] 0 "S".data
    _ (by decide)).1⟩
